import Mathlib

set_option maxHeartbeats 1000000

/-
Verification of the feed-reader core in src/rss_reader.py: a shallow
embedding of the content normalizer (clean_html), the ingestion pipeline
(load_feeds) and the rotation operations (update_display,
action_next_story, action_prev_story), together with proofs of the
documented properties.
-/

namespace RSS

/-- Whitespace characters of the regex class used by the flattening step of
clean_html (the ASCII part of the Python whitespace class): space, tab,
newline, carriage return, vertical tab, form feed. -/
def pySpace (c : Char) : Bool :=
  c = ' ' || c = '\t' || c = '\n' || c = '\r' || c = Char.ofNat 11 || c = Char.ofNat 12

/-- Scanning model of the regex substitution in clean_html that replaces
each whitespace run by a single space. The flag records whether the scanner
is currently inside a whitespace run (in which case further whitespace
characters of the same run are dropped). -/
def collapseAux : Bool → List Char → List Char
  | _, [] => []
  | inRun, c :: cs =>
    if pySpace c then
      if inRun then collapseAux true cs
      else ' ' :: collapseAux true cs
    else c :: collapseAux false cs

/-- The whitespace flattening performed by clean_html on the extracted
text: the regex substitution, starting outside any whitespace run. -/
def collapseWs (l : List Char) : List Char := collapseAux false l

/-- Model of the strip call of clean_html: remove whitespace from both ends
(the trailing side via reverse, then the leading side; the two sides are
independent so the order does not matter). -/
def stripEnds (l : List Char) : List Char :=
  ((l.reverse.dropWhile pySpace).reverse).dropWhile pySpace

/-- Length of dropWhile never exceeds the length of the input. -/
theorem length_dropWhile_le (p : Char → Bool) (l : List Char) :
    (l.dropWhile p).length ≤ l.length := by
  induction l with
  | nil => simp
  | cons c cs ih =>
    by_cases h : p c
    · rw [List.dropWhile_cons_of_pos h]; exact Nat.le_succ_of_le ih
    · rw [List.dropWhile_cons_of_neg h]

/-- Declarative reading of step 3 of the normalization ladder in the spec:
walk the text run by run, emitting one space for each maximal whitespace
run and copying every other character. -/
def specCollapse : List Char → List Char
  | [] => []
  | c :: cs =>
    if pySpace c then ' ' :: specCollapse (cs.dropWhile pySpace)
    else c :: specCollapse cs
termination_by l => l.length
decreasing_by
  · simp only [List.length_cons]
    exact Nat.lt_succ_of_le (length_dropWhile_le pySpace cs)
  · simp

/-- Inside a whitespace run the scanner behaves like a fresh scan of the
text with the rest of the run removed. -/
theorem collapseAux_true_eq (l : List Char) :
    collapseAux true l = collapseAux false (l.dropWhile pySpace) := by
  induction l with
  | nil => rfl
  | cons c cs ih =>
    by_cases h : pySpace c
    · rw [List.dropWhile_cons_of_pos h]
      simpa [collapseAux, h] using ih
    · rw [List.dropWhile_cons_of_neg h]
      simp [collapseAux, h]

/-- The scanning substitution of clean_html computes exactly the
run-by-run collapse described by the spec. -/
theorem collapseWs_eq_specCollapse (l : List Char) : collapseWs l = specCollapse l := by
  have main : ∀ n l, List.length l ≤ n → collapseAux false l = specCollapse l := by
    intro n
    induction n with
    | zero =>
      intro l hl
      have : l = [] := List.eq_nil_of_length_eq_zero (Nat.le_zero.mp hl)
      subst this; rw [specCollapse]; rfl
    | succ n ih =>
      intro l hl
      match l with
      | [] => rw [specCollapse]; rfl
      | c :: cs =>
        by_cases h : pySpace c
        · have h1 : collapseAux false (c :: cs) = ' ' :: collapseAux true cs := by
            simp [collapseAux, h]
          have h2 : specCollapse (c :: cs) = ' ' :: specCollapse (cs.dropWhile pySpace) := by
            rw [specCollapse]; simp [h]
          rw [h1, h2, collapseAux_true_eq]
          have hlen : (cs.dropWhile pySpace).length ≤ n := by
            have := length_dropWhile_le pySpace cs
            have hcs : cs.length ≤ n := by simpa using Nat.le_of_succ_le_succ hl
            omega
          rw [ih _ hlen]
        · have h1 : collapseAux false (c :: cs) = c :: collapseAux false cs := by
            simp [collapseAux, h]
          have h2 : specCollapse (c :: cs) = c :: specCollapse cs := by
            rw [specCollapse]; simp [h]
          rw [h1, h2, ih cs (by simpa using Nat.le_of_succ_le_succ hl)]
  exact main (List.length l) l (Nat.le_refl _)

/-- Letters that may start a tag name. -/
def isTagLetter (c : Char) : Bool := ('a' ≤ c && c ≤ 'z') || ('A' ≤ c && c ≤ 'Z')

/-- Characters of a tag name. -/
def isTagChar (c : Char) : Bool := isTagLetter c || ('0' ≤ c && c ≤ '9')

/-- Lower-case a letter, as the parser does with tag names. -/
def lowerChar (c : Char) : Char :=
  if 'A' ≤ c && c ≤ 'Z' then Char.ofNat (c.toNat + 32) else c

/-- Skip the remainder of a tag up to and including the closing angle
bracket (attributes are ignored by the extraction, so their content is
simply skipped). -/
def dropGt (l : List Char) : List Char := (l.dropWhile (fun c => c != '>')).drop 1

/-- Lexical items of the markup scanner: a text character, an opening tag
or a closing tag. Adjacent text characters need not be merged because the
only consumer is text extraction, which concatenates. -/
inductive Tok
  | text (c : Char)
  | openTag (name : List Char)
  | closeTag (name : List Char)
deriving DecidableEq

/-- Character-entity decoding performed by the parser in text content: the
named entities for the ampersand, the angle brackets and the double quote
are recognized after an ampersand; the decoded character and the remaining
input are returned. An unrecognized sequence stays literal text. -/
def entityAt (l : List Char) : Option (Char × List Char) :=
  if l.take 4 = ['a', 'm', 'p', ';'] then some ('&', l.drop 4)
  else if l.take 3 = ['l', 't', ';'] then some ('<', l.drop 3)
  else if l.take 3 = ['g', 't', ';'] then some ('>', l.drop 3)
  else if l.take 5 = ['q', 'u', 'o', 't', ';'] then some ('"', l.drop 5)
  else none

/-- Scanner for the markup, modelling the lenient tokenization of the html
parsing library used by clean_html: an angle bracket followed by a letter
opens a tag, followed by a slash closes one, an ampersand starting a
recognized character entity decodes to the entity character, and anything
else is literal text. The fuel argument bounds the recursion; every step
consumes at least one character, so fuel equal to the length of the input
suffices. -/
def tokenize : Nat → List Char → List Tok
  | 0, _ => []
  | _ + 1, [] => []
  | fuel + 1, c :: rest =>
    if c = '<' then
      match rest with
      | [] => [Tok.text '<']
      | d :: rest2 =>
        if isTagLetter d then
          Tok.openTag ((rest.takeWhile isTagChar).map lowerChar) ::
            tokenize fuel (dropGt (rest.dropWhile isTagChar))
        else if d = '/' then
          Tok.closeTag ((rest2.takeWhile isTagChar).map lowerChar) ::
            tokenize fuel (dropGt (rest2.dropWhile isTagChar))
        else
          Tok.text '<' :: tokenize fuel rest
    else if c = '&' then
      match entityAt rest with
      | some p => Tok.text p.fst :: tokenize fuel p.snd
      | none => Tok.text '&' :: tokenize fuel rest
    else
      Tok.text c :: tokenize fuel rest

mutual
/-- Document tree produced by the parser: text characters and elements with
children. -/
inductive Node
  | text (c : Char)
  | elem (tag : List Char) (children : NodeList)
/-- Sequence of sibling nodes. -/
inductive NodeList
  | nil
  | cons (head : Node) (tail : NodeList)
end

/-- Append one node at the end of a sibling sequence. -/
def snocNL : NodeList → Node → NodeList
  | NodeList.nil, n => NodeList.cons n NodeList.nil
  | NodeList.cons h t, n => NodeList.cons h (snocNL t n)

/-- The sibling sequence holding the text nodes of the given characters. -/
def textNL : List Char → NodeList
  | [] => NodeList.nil
  | c :: cs => NodeList.cons (Node.text c) (textNL cs)

/-- Concatenation of sibling sequences. -/
def appendNL : NodeList → NodeList → NodeList
  | NodeList.nil, m => m
  | NodeList.cons h t, m => NodeList.cons h (appendNL t m)

/-- Elements that never hold content and are closed on sight (the subset of
the void elements relevant here; in particular the line break element). -/
def voidTag (t : List Char) : Bool :=
  t == ['b', 'r'] || t == ['h', 'r'] || t == ['i', 'm', 'g']

/-- Append a finished node to the innermost open element, or to the root
sequence when no element is open. -/
def addChild (stack : List (List Char × NodeList)) (acc : NodeList) (n : Node) :
    List (List Char × NodeList) × NodeList :=
  match stack with
  | [] => ([], snocNL acc n)
  | (t, cs) :: st => ((t, snocNL cs n) :: st, acc)

/-- Close open elements until one with the given tag has been closed,
modelling the recovery behaviour of the parser on a closing tag: inner
elements still open are closed implicitly. -/
def closeUntilGo (tag : List Char) : Node → List (List Char × NodeList) → NodeList →
    List (List Char × NodeList) × NodeList
  | n, [], acc => ([], snocNL acc n)
  | n, (t, cs) :: st, acc =>
    if t = tag then addChild st acc (Node.elem t (snocNL cs n))
    else closeUntilGo tag (Node.elem t (snocNL cs n)) st acc

/-- Close open elements until one with the given tag has been closed; the
innermost frame is inspected first. -/
def closeUntil (tag : List Char) (stack : List (List Char × NodeList)) (acc : NodeList) :
    List (List Char × NodeList) × NodeList :=
  match stack with
  | [] => ([], acc)
  | (t, cs) :: st =>
    if t = tag then addChild st acc (Node.elem t cs)
    else closeUntilGo tag (Node.elem t cs) st acc

/-- Fold a finished node through the remaining open frames at the end of
the input. -/
def closeAllGo : Node → List (List Char × NodeList) → NodeList → NodeList
  | n, [], acc => snocNL acc n
  | n, (t, cs) :: st, acc => closeAllGo (Node.elem t (snocNL cs n)) st acc

/-- Close every element still open at the end of the input (the recovery
parser closes unclosed elements implicitly). -/
def closeAll : List (List Char × NodeList) → NodeList → NodeList
  | [], acc => acc
  | (t, cs) :: st, acc => closeAllGo (Node.elem t cs) st acc

/-- Tree construction from the token stream with a stack of open elements:
text goes to the innermost open element, a void tag yields an empty
element, an opening tag pushes, and a closing tag closes up to the nearest
matching open element and is ignored when none exists. -/
def buildAux : List Tok → List (List Char × NodeList) → NodeList → NodeList
  | [], st, acc => closeAll st acc
  | Tok.text c :: ts, st, acc =>
    let p := addChild st acc (Node.text c)
    buildAux ts p.fst p.snd
  | Tok.openTag t :: ts, st, acc =>
    if voidTag t then
      let p := addChild st acc (Node.elem t NodeList.nil)
      buildAux ts p.fst p.snd
    else buildAux ts ((t, NodeList.nil) :: st) acc
  | Tok.closeTag t :: ts, st, acc =>
    if st.any (fun fr => fr.fst == t) then
      let p := closeUntil t st acc
      buildAux ts p.fst p.snd
    else buildAux ts st acc

/-- Parse a character sequence into a document tree (total: the recovery
parser succeeds on every input, malformed markup included). -/
def parseHtml (l : List Char) : NodeList :=
  buildAux (tokenize (l.length + 1) l) [] NodeList.nil

/-- First paragraph element of the document in document order, as found by
the find call of clean_html. -/
def findP : NodeList → Option Node
  | NodeList.nil => none
  | NodeList.cons (Node.text _) ns => findP ns
  | NodeList.cons (Node.elem t cs) ns =>
    if t = ['p'] then some (Node.elem t cs)
    else
      match findP cs with
      | some p => some p
      | none => findP ns

/-- Concatenated text content of a sequence of nodes, as computed by the
text extraction call: element markup contributes nothing, only text
characters remain, with no separator inserted. -/
def getTextL : NodeList → List Char
  | NodeList.nil => []
  | NodeList.cons (Node.text c) ns => c :: getTextL ns
  | NodeList.cons (Node.elem _ cs) ns => getTextL cs ++ getTextL ns

/-- Text content of one node. -/
def getTextN : Node → List Char
  | Node.text c => [c]
  | Node.elem _ cs => getTextL cs

/-- Raw text selected by clean_html: the text of the first paragraph
element when one exists, the text of the whole document otherwise. -/
def extractText (doc : NodeList) : List Char :=
  match findP doc with
  | some p => getTextN p
  | none => getTextL doc

/-- Model of clean_html from src/rss_reader.py: the empty input yields the
fixed fallback text; otherwise the input is parsed, the text of the first
paragraph (or of the whole document) is extracted, whitespace runs are
flattened to single spaces by the regex substitution, and the ends are
stripped. -/
def clean_html (html_content : String) : String :=
  if html_content = "" then "No content available."
  else String.mk (stripEnds (collapseWs (extractText (parseHtml html_content.data))))

/-- The normalization ladder exactly as the spec words it: fallback on
empty input, first paragraph text or whole document text, each maximal
whitespace run collapsed to a single space, ends trimmed. -/
def normalize_spec (raw_markup : String) : String :=
  if raw_markup = "" then "No content available."
  else String.mk (stripEnds (specCollapse (extractText (parseHtml raw_markup.data))))

/-- Python style strip of a line of the source list file. -/
def stripStr (s : String) : String := String.mk (stripEnds s.data)

/-- A displayable story as assembled by load_feeds: title, publication
timestamp (modelled as an integer so that only its ordering matters),
source label and normalized body. -/
structure Story where
  title : String
  date : Int
  source : String
  body : String
deriving DecidableEq

/-- One raw item of a parsed feed, as handed over by the external feed
parsing capability. The broken flag models an item whose processing raises
(for example a malformed content structure or timestamp): the per-source
exception handler in load_feeds then abandons the rest of that feed. -/
structure RawItem where
  broken : Bool
  title : Option String
  content : Option String
  summary : Option String
  published_parsed : Option Int
  updated_parsed : Option Int
deriving DecidableEq

/-- A parsed feed: declared feed title and its raw items. -/
structure RawFeed where
  feedTitle : Option String
  entries : List RawItem
deriving DecidableEq

/-- Body markup selected for an item: the full content field when present,
else the summary field, else the empty string. -/
def entryBody (it : RawItem) : String :=
  match it.content with
  | some c => c
  | none => it.summary.getD ""

/-- Timestamp selected for an item: published, else updated, else the
current time of the ingestion run. -/
def entryDate (now : Int) (it : RawItem) : Int :=
  match it.published_parsed with
  | some t => t
  | none =>
    match it.updated_parsed with
    | some t => t
    | none => now

/-- One story assembled from a raw item, with the defaulted title, the
selected timestamp, the source label and the normalized body. -/
def mkStory (now : Int) (src : String) (it : RawItem) : Story :=
  { title := it.title.getD "No Title"
    date := entryDate now it
    source := src
    body := clean_html (entryBody it) }

/-- The per-entry loop of load_feeds for one feed, run under the per-source
exception handler: items are appended one by one, and an item whose
processing raises aborts the loop, keeping the stories already collected
from this feed and dropping the rest. -/
def processItems (now : Int) (src : String) : List RawItem → List Story
  | [] => []
  | it :: rest =>
    if it.broken then []
    else mkStory now src it :: processItems now src rest

/-- Processing of one source address: a fetch failure is caught by the
per-source handler and yields no stories; otherwise the items are
processed with the declared feed title (or the address) as label. -/
def processUrl (fetch : String → Option RawFeed) (now : Int) (url : String) : List Story :=
  match fetch url with
  | none => []
  | some feed => processItems now (feed.feedTitle.getD url) feed.entries

/-- Concatenation of the per-source results over all addresses, in source
order: the discovery order of the run. -/
def loadEntries (fetch : String → Option RawFeed) (now : Int) (urls : List String) : List Story :=
  urls.flatMap (processUrl fetch now)

/-- The address lines of the source list file: each line stripped, blank
lines skipped. -/
def urlsOf (lines : List String) : List String :=
  (lines.map stripStr).filter (fun s => s ≠ "")

/-- Insertion into a descending list: the new story goes after every story
with an equal or larger timestamp, in particular after all stories with
the same timestamp that were discovered before it. -/
def insertDesc (x : Story) : List Story → List Story
  | [] => [x]
  | y :: ys => if y.date < x.date then x :: y :: ys else y :: insertDesc x ys

/-- Model of the sorting step of load_feeds: the stable sort by timestamp
descending, built by inserting the stories in discovery order. -/
def sortStories (l : List Story) : List Story :=
  l.foldl (fun acc x => insertDesc x acc) []

/-- The mutable state of the reader relevant to the claims: the published
story list and the rotation index. -/
structure AppState where
  stories : List Story
  current_index : Nat
deriving DecidableEq

/-- Updates pushed to the display: a status line on the title widget, or a
full story render. -/
inductive Signal
  | setTitle (msg : String)
  | showStory (s : Story)
deriving DecidableEq

/-- Model of update_display: nothing happens on an empty story list; the
out-of-bounds safety check resets the index to zero; the story at the
current index is pushed to the display. -/
def update_display (st : AppState) : AppState × List Signal :=
  match st.stories with
  | [] => (st, [])
  | s0 :: rest =>
    let idx := if st.current_index ≥ (s0 :: rest).length then 0 else st.current_index
    let story := (s0 :: rest).getD idx s0
    ({ st with current_index := idx }, [Signal.showStory story])

/-- Outcome of opening and reading the source list file: the address
lines, the missing-file error, or any other read failure such as a
permission error or a decode error while iterating the file. The handler
in load_feeds catches only the missing-file error. -/
inductive ReadResult
  | ok (lines : List String)
  | fileNotFound
  | readError

/-- Model of load_feeds: read the source list; only the missing-file error
is caught (it reports an error status and changes nothing), while any
other read failure propagates uncaught out of load_feeds, modelled by the
none result (nothing is reported and no state was mutated). On a
successful read, strip and filter the address lines, concatenate the
per-source results, then either report a no-stories status and change
nothing, or publish the sorted list, reset the index to zero and render. -/
def load_feeds (readFile : ReadResult) (fetch : String → Option RawFeed)
    (now : Int) (st : AppState) : Option (AppState × List Signal) :=
  match readFile with
  | ReadResult.fileNotFound => some (st, [Signal.setTitle "Error: feeds.txt not found"])
  | ReadResult.readError => none
  | ReadResult.ok lines =>
    let all_entries := loadEntries fetch now (urlsOf lines)
    if all_entries.isEmpty then some (st, [Signal.setTitle "No stories found."])
    else some (update_display { stories := sortStories all_entries, current_index := 0 })

/-- Model of action_next_story: a no-op on an empty story list, otherwise
advance the index cyclically and render. -/
def action_next_story (st : AppState) : AppState × List Signal :=
  if st.stories.isEmpty then (st, [])
  else update_display { st with current_index := (st.current_index + 1) % st.stories.length }

/-- Model of action_prev_story: a no-op on an empty story list, otherwise
retreat the index cyclically (the Python modulo of the negative value
equals adding the length first) and render. -/
def action_prev_story (st : AppState) : AppState × List Signal :=
  if st.stories.isEmpty then (st, [])
  else update_display
    { st with current_index := (st.current_index + st.stories.length - 1) % st.stories.length }

/-- The operations that touch the story list or the rotation index. -/
inductive Op
  | load (readFile : ReadResult) (fetch : String → Option RawFeed) (now : Int)
  | next
  | prev
  | display

/-- Dispatch of one operation on the state; none models an uncaught
exception escaping the operation. The navigation and display operations
never raise. -/
def applyOp : Op → AppState → Option (AppState × List Signal)
  | Op.load r f n, st => load_feeds r f n st
  | Op.next, st => some (action_next_story st)
  | Op.prev, st => some (action_prev_story st)
  | Op.display, st => some (update_display st)

/-- State and display signals after an operation run: when the operation
raised, the state is unchanged and nothing was pushed (in load_feeds the
uncaught read error happens before any mutation of the state). -/
def runOut (r : Option (AppState × List Signal)) (st : AppState) : AppState × List Signal :=
  r.getD (st, [])

/-- The documented rotation invariant: on a non-empty story list the index
is in bounds. -/
def Inv (st : AppState) : Prop := st.stories ≠ [] → st.current_index < st.stories.length

/-- A sequence that does not start with whitespace. -/
def headNotWs : List Char → Bool
  | [] => true
  | c :: _ => !pySpace c

/-- Every whitespace character of the sequence is a plain space. -/
def allWsIsSpace : List Char → Bool
  | [] => true
  | c :: r => (!pySpace c || c == ' ') && allWsIsSpace r

/-- No two adjacent whitespace characters. -/
def noDbl : List Char → Bool
  | [] => true
  | [_] => true
  | a :: b :: r => (!(pySpace a && pySpace b)) && noDbl (b :: r)

/-- A fully normalized summary: whitespace only as single interior spaces,
nothing at either end. -/
def isNormalized (l : List Char) : Bool :=
  allWsIsSpace l && noDbl l && headNotWs l && headNotWs l.reverse

end RSS

namespace RSS

theorem allWsIsSpace_collapseAux (b : Bool) (l : List Char) :
    allWsIsSpace (collapseAux b l) = true := by
  induction l generalizing b with
  | nil => rfl
  | cons c cs ih =>
    by_cases h : pySpace c
    · cases b with
      | true => simpa [collapseAux, h] using ih true
      | false =>
        have : collapseAux false (c :: cs) = ' ' :: collapseAux true cs := by
          simp [collapseAux, h]
        rw [this, allWsIsSpace]
        simp [ih true]
    · have : collapseAux b (c :: cs) = c :: collapseAux false cs := by
        simp [collapseAux, h]
      rw [this, allWsIsSpace]
      simp [h, ih false]

theorem headNotWs_collapseAux_true (l : List Char) :
    headNotWs (collapseAux true l) = true := by
  induction l with
  | nil => rfl
  | cons c cs ih =>
    by_cases h : pySpace c
    · simpa [collapseAux, h] using ih
    · simp [collapseAux, h, headNotWs]

theorem noDbl_cons_of_not_ws (a : Char) (r : List Char) (ha : pySpace a = false)
    (hr : noDbl r = true) : noDbl (a :: r) = true := by
  cases r with
  | nil => rfl
  | cons b s => simp [noDbl, ha, hr]

theorem noDbl_cons_of_headNot (a : Char) (r : List Char) (hr : headNotWs r = true)
    (hd : noDbl r = true) : noDbl (a :: r) = true := by
  cases r with
  | nil => rfl
  | cons b s =>
    simp only [headNotWs] at hr
    simp [noDbl, hd, hr]

theorem noDbl_collapseAux (b : Bool) (l : List Char) : noDbl (collapseAux b l) = true := by
  induction l generalizing b with
  | nil => rfl
  | cons c cs ih =>
    by_cases h : pySpace c
    · cases b with
      | true => simpa [collapseAux, h] using ih true
      | false =>
        simp only [collapseAux, h, if_pos]
        exact noDbl_cons_of_headNot ' ' _ (headNotWs_collapseAux_true cs) (ih true)
    · simp only [collapseAux, h, if_neg, Bool.false_eq_true, not_false_eq_true]
      exact noDbl_cons_of_not_ws c _ (by simpa using h) (ih false)

theorem noDbl_tail (a : Char) (r : List Char) (h : noDbl (a :: r) = true) : noDbl r = true := by
  cases r with
  | nil => rfl
  | cons b s =>
    have h2 : ((!(pySpace a && pySpace b)) && noDbl (b :: s)) = true := h
    exact (Bool.and_eq_true _ _ |>.mp h2).2

theorem noDbl_dropWhile (l : List Char) (h : noDbl l = true) :
    noDbl (l.dropWhile pySpace) = true := by
  induction l with
  | nil => simpa using h
  | cons c cs ih =>
    by_cases hc : pySpace c
    · rw [List.dropWhile_cons_of_pos hc]
      exact ih (noDbl_tail c cs h)
    · rw [List.dropWhile_cons_of_neg hc]
      exact h

theorem noDbl_chain (l : List Char) :
    noDbl l = true ↔ l.Chain' (fun a b => ¬(pySpace a = true ∧ pySpace b = true)) := by
  induction l with
  | nil => simp [noDbl]
  | cons a r ih =>
    cases r with
    | nil => simp [noDbl]
    | cons b s =>
      rw [List.chain'_cons, ← ih]
      constructor
      · intro h
        have h1 : (!(pySpace a && pySpace b)) = true ∧ noDbl (b :: s) = true := by
          simpa [noDbl, Bool.and_eq_true] using h
        constructor
        · intro hc
          rcases h1 with ⟨hab, _⟩
          rw [hc.1, hc.2] at hab
          simp at hab
        · exact h1.2
      · intro hp
        rcases hp with ⟨hab, hr⟩
        show ((!(pySpace a && pySpace b)) && noDbl (b :: s)) = true
        rw [Bool.and_eq_true]
        refine ⟨?_, hr⟩
        by_cases ha : pySpace a <;> by_cases hb : pySpace b <;> simp_all

theorem noDbl_reverse (l : List Char) (h : noDbl l = true) : noDbl l.reverse = true := by
  rw [noDbl_chain] at h ⊢
  rw [List.chain'_reverse]
  exact h.imp fun a b hab hc => hab ⟨hc.2, hc.1⟩

theorem allWsIsSpace_dropWhile (l : List Char) (h : allWsIsSpace l = true) :
    allWsIsSpace (l.dropWhile pySpace) = true := by
  induction l with
  | nil => simpa using h
  | cons c cs ih =>
    rw [allWsIsSpace, Bool.and_eq_true] at h
    by_cases hc : pySpace c
    · rw [List.dropWhile_cons_of_pos hc]
      exact ih h.2
    · rw [List.dropWhile_cons_of_neg hc]
      rw [allWsIsSpace, Bool.and_eq_true]
      exact ⟨h.1, h.2⟩

theorem allWsIsSpace_append (a b : List Char) (ha : allWsIsSpace a = true)
    (hb : allWsIsSpace b = true) : allWsIsSpace (a ++ b) = true := by
  induction a with
  | nil => simpa using hb
  | cons c cs ih =>
    rw [allWsIsSpace, Bool.and_eq_true] at ha
    rw [List.cons_append, allWsIsSpace, Bool.and_eq_true]
    exact ⟨ha.1, ih ha.2⟩

theorem allWsIsSpace_reverse (l : List Char) (h : allWsIsSpace l = true) :
    allWsIsSpace l.reverse = true := by
  induction l with
  | nil => simpa using h
  | cons c cs ih =>
    rw [allWsIsSpace, Bool.and_eq_true] at h
    rw [List.reverse_cons]
    exact allWsIsSpace_append _ _ (ih h.2) (by simp [allWsIsSpace, h.1])

theorem headNotWs_dropWhile (l : List Char) : headNotWs (l.dropWhile pySpace) = true := by
  induction l with
  | nil => rfl
  | cons c cs ih =>
    by_cases hc : pySpace c
    · rw [List.dropWhile_cons_of_pos hc]; exact ih
    · rw [List.dropWhile_cons_of_neg hc]; simpa [headNotWs] using hc

theorem dropWhile_eq_self_of_headNot (l : List Char) (h : headNotWs l = true) :
    l.dropWhile pySpace = l := by
  cases l with
  | nil => rfl
  | cons c cs =>
    simp only [headNotWs, Bool.not_eq_eq_eq_not, Bool.not_true] at h
    exact List.dropWhile_cons_of_neg (by simp [h])

theorem headNotWs_append (a b : List Char) (ha : a ≠ []) :
    headNotWs (a ++ b) = headNotWs a := by
  cases a with
  | nil => exact absurd rfl ha
  | cons c cs => rfl

theorem noDbl_head_of_ws (a : Char) (r : List Char) (ha : pySpace a = true)
    (h : noDbl (a :: r) = true) : headNotWs r = true := by
  cases r with
  | nil => rfl
  | cons b s =>
    have h2 : ((!(pySpace a && pySpace b)) && noDbl (b :: s)) = true := h
    have h3 := (Bool.and_eq_true _ _ |>.mp h2).1
    rw [ha] at h3
    simp only [Bool.true_and, Bool.not_eq_eq_eq_not, Bool.not_true] at h3
    simp [headNotWs, h3]

theorem headNotWs_reverse_dropWhile (z : List Char) (h : headNotWs z.reverse = true) :
    headNotWs (z.dropWhile pySpace).reverse = true := by
  induction z with
  | nil => rfl
  | cons c cs ih =>
    by_cases hc : pySpace c
    · rw [List.dropWhile_cons_of_pos hc]
      apply ih
      cases hcs : cs with
      | nil =>
        subst hcs
        simp only [List.reverse_cons, List.reverse_nil, List.nil_append, headNotWs] at h
        simp [hc] at h
      | cons d ds =>
        rw [hcs] at h
        rw [List.reverse_cons] at h
        rw [headNotWs_append _ _ (by simp)] at h
        exact h
    · rw [List.dropWhile_cons_of_neg hc]
      exact h

end RSS


namespace RSS

theorem allWsIsSpace_cons_elim (c : Char) (r : List Char)
    (h : allWsIsSpace (c :: r) = true) :
    (!pySpace c || c == ' ') = true ∧ allWsIsSpace r = true := by
  have h2 : ((!pySpace c || c == ' ') && allWsIsSpace r) = true := h
  exact Bool.and_eq_true _ _ |>.mp h2

theorem isNormalized_stripEnds_collapseWs (l : List Char) :
    isNormalized (stripEnds (collapseWs l)) = true := by
  have hA := allWsIsSpace_collapseAux false l
  have hD := noDbl_collapseAux false l
  have hA2 : allWsIsSpace (stripEnds (collapseWs l)) = true := by
    unfold stripEnds
    exact allWsIsSpace_dropWhile _
      (allWsIsSpace_reverse _ (allWsIsSpace_dropWhile _ (allWsIsSpace_reverse _ hA)))
  have hD2 : noDbl (stripEnds (collapseWs l)) = true := by
    unfold stripEnds
    exact noDbl_dropWhile _
      (noDbl_reverse _ (noDbl_dropWhile _ (noDbl_reverse _ hD)))
  have hH2 : headNotWs (stripEnds (collapseWs l)) = true := by
    unfold stripEnds
    exact headNotWs_dropWhile _
  have hT2 : headNotWs (stripEnds (collapseWs l)).reverse = true := by
    unfold stripEnds
    apply headNotWs_reverse_dropWhile
    rw [List.reverse_reverse]
    exact headNotWs_dropWhile _
  unfold isNormalized
  rw [hA2, hD2, hH2, hT2]
  rfl

theorem collapseAux_fixed (r : List Char) (hA : allWsIsSpace r = true)
    (hD : noDbl r = true) :
    collapseAux false r = r ∧ (headNotWs r = true → collapseAux true r = r) := by
  induction r with
  | nil => exact ⟨rfl, fun _ => rfl⟩
  | cons c cs ih =>
    obtain ⟨hc1, hA2⟩ := allWsIsSpace_cons_elim c cs hA
    have hD2 : noDbl cs = true := noDbl_tail c cs hD
    obtain ⟨ihF, ihT⟩ := ih hA2 hD2
    by_cases hc : pySpace c
    · have hsp : c = ' ' := by
        rw [hc] at hc1
        simpa using hc1
      have hhd : headNotWs cs = true := noDbl_head_of_ws c cs hc hD
      constructor
      · have : collapseAux false (c :: cs) = ' ' :: collapseAux true cs := by
          simp [collapseAux, hc]
        rw [this, ihT hhd, hsp]
      · intro hh
        rw [headNotWs, hc] at hh
        simp at hh
    · constructor
      · have : collapseAux false (c :: cs) = c :: collapseAux false cs := by
          simp [collapseAux, hc]
        rw [this, ihF]
      · intro _
        have : collapseAux true (c :: cs) = c :: collapseAux false cs := by
          simp [collapseAux, hc]
        rw [this, ihF]

theorem stripEnds_fixed (r : List Char) (h1 : headNotWs r = true)
    (h2 : headNotWs r.reverse = true) : stripEnds r = r := by
  unfold stripEnds
  rw [dropWhile_eq_self_of_headNot _ h2, List.reverse_reverse,
    dropWhile_eq_self_of_headNot _ h1]

theorem isNormalized_elim (r : List Char) (h : isNormalized r = true) :
    allWsIsSpace r = true ∧ noDbl r = true ∧ headNotWs r = true ∧
      headNotWs r.reverse = true := by
  unfold isNormalized at h
  rw [Bool.and_eq_true, Bool.and_eq_true, Bool.and_eq_true] at h
  exact ⟨h.1.1.1, h.1.1.2, h.1.2, h.2⟩

theorem normalized_fixed (r : List Char) (h : isNormalized r = true) :
    stripEnds (collapseWs r) = r := by
  obtain ⟨hA, hD, hH, hT⟩ := isNormalized_elim r h
  have hc : collapseWs r = r := (collapseAux_fixed r hA hD).1
  rw [hc, stripEnds_fixed r hH hT]

theorem collapseAux_true_of_allws (l : List Char) (h : l.all pySpace = true) :
    collapseAux true l = [] := by
  induction l with
  | nil => rfl
  | cons c cs ih =>
    rw [List.all_cons, Bool.and_eq_true] at h
    simp [collapseAux, h.1, ih h.2]

theorem stripEnds_collapseWs_allws (l : List Char) (h : l.all pySpace = true) :
    stripEnds (collapseWs l) = [] := by
  cases l with
  | nil => rfl
  | cons c cs =>
    rw [List.all_cons, Bool.and_eq_true] at h
    have h1 : collapseWs (c :: cs) = [' '] := by
      unfold collapseWs
      simp [collapseAux, h.1, collapseAux_true_of_allws cs h.2]
    rw [h1]
    decide

theorem tokenize_plain (fuel : Nat) (l : List Char) (hf : l.length < fuel)
    (h : '<' ∉ l) (ha : '&' ∉ l) : tokenize fuel l = l.map Tok.text := by
  induction fuel generalizing l with
  | zero => omega
  | succ n ih =>
    cases l with
    | nil => rfl
    | cons c cs =>
      have hc : ¬(c = '<') := fun e => h (by simp [e])
      have hd : ¬(c = '&') := fun e => ha (by simp [e])
      have hcs : '<' ∉ cs := fun e => h (by simp [e])
      have hacs : '&' ∉ cs := fun e => ha (by simp [e])
      have hlen : cs.length < n := by
        simp only [List.length_cons] at hf
        omega
      show tokenize (n + 1) (c :: cs) = Tok.text c :: cs.map Tok.text
      rw [tokenize.eq_def]
      simp only [hc, hd, if_false]
      rw [ih cs hlen hcs hacs]

theorem appendNL_nil_right : (a : NodeList) → appendNL a NodeList.nil = a
  | NodeList.nil => rfl
  | NodeList.cons h t => by rw [appendNL, appendNL_nil_right t]

theorem appendNL_snoc : (a : NodeList) → (n : Node) → (m : NodeList) →
    appendNL (snocNL a n) m = appendNL a (NodeList.cons n m)
  | NodeList.nil, n, m => rfl
  | NodeList.cons h t, n, m => by
    rw [snocNL, appendNL, appendNL_snoc t n m, appendNL]

theorem buildAux_text (l : List Char) (acc : NodeList) :
    buildAux (l.map Tok.text) [] acc = appendNL acc (textNL l) := by
  induction l generalizing acc with
  | nil =>
    show closeAll [] acc = appendNL acc (textNL [])
    rw [closeAll, textNL, appendNL_nil_right]
  | cons c cs ih =>
    show buildAux (Tok.text c :: cs.map Tok.text) [] acc = _
    rw [buildAux]
    show buildAux (cs.map Tok.text) [] (snocNL acc (Node.text c)) = _
    rw [ih, appendNL_snoc, textNL]

theorem parseHtml_plain (l : List Char) (h : '<' ∉ l) (ha : '&' ∉ l) :
    parseHtml l = textNL l := by
  unfold parseHtml
  rw [tokenize_plain _ _ (by omega) h ha, buildAux_text]
  rfl

theorem findP_textNL (l : List Char) : findP (textNL l) = none := by
  induction l with
  | nil => rfl
  | cons c cs ih => rw [textNL, findP, ih]

theorem getTextL_textNL (l : List Char) : getTextL (textNL l) = l := by
  induction l with
  | nil => rfl
  | cons c cs ih => rw [textNL, getTextL, ih]

theorem extractText_textNL (l : List Char) : extractText (textNL l) = l := by
  unfold extractText
  rw [findP_textNL, getTextL_textNL]

end RSS

namespace RSS

theorem isNormalized_clean_html (x : String) : isNormalized (clean_html x).data = true := by
  unfold clean_html
  by_cases hx : x = ""
  · rw [if_pos hx]
    decide
  · rw [if_neg hx]
    exact isNormalized_stripEnds_collapseWs _

theorem clean_html_fixed (r : String) (h1 : r ≠ "") (h2 : '<' ∉ r.data)
    (h2a : '&' ∉ r.data) (h3 : isNormalized r.data = true) : clean_html r = r := by
  unfold clean_html
  rw [if_neg h1, parseHtml_plain _ h2 h2a, extractText_textNL, normalized_fixed _ h3]

/-- C1: the claim expects the summary of a first paragraph holding a line
break between two words to read as the words separated by a space; on the
code the line break element contributes no text, so the two words come out
concatenated with no separator. The concrete feed body of the claim
refutes the claimed output. -/
theorem c1_br_counterexample :
    clean_html "<p>Hello<br>World</p><p>Second paragraph.</p>" ≠ "Hello World" := by
  decide

/-- C1 (amended): for the feed body of the claim, normalize returns the
two words of the first paragraph concatenated with no separator, and the
second paragraph is excluded. -/
theorem c1_br_amended :
    clean_html "<p>Hello<br>World</p><p>Second paragraph.</p>" = "HelloWorld" := by
  decide

/-- C2: the normalization of clean_html follows the ladder of the spec
exactly: the fallback text on empty input, otherwise the text of the first
paragraph element (or of the whole document when none exists) with every
maximal whitespace run collapsed to one space and the ends trimmed. -/
theorem c2_normalize_ladder (raw_markup : String) :
    clean_html raw_markup = normalize_spec raw_markup := by
  unfold clean_html normalize_spec
  rw [collapseWs_eq_specCollapse]

/-- C6: normalize is a total function of the input: every input, malformed
markup included, is parsed by the recovering parser and produces a
well-formed normalized result (no embedded runs of whitespace, nothing at
the ends), never an exception. -/
theorem c6_total_on_malformed (s : String) : isNormalized (clean_html s).data = true :=
  isNormalized_clean_html s

/-- C9: normalize is not idempotent as claimed, in two ways: an input
whose first paragraph is empty normalizes to the empty string, which
re-normalizes to the fallback text; and an input whose text holds an
escaped entity normalizes to output containing an entity sequence, which
the second pass decodes again. -/
theorem c9_idem_counterexample :
    clean_html (clean_html "<p></p>") ≠ clean_html "<p></p>"
    ∧ clean_html (clean_html "<p>&amp;amp;</p>") ≠ clean_html "<p>&amp;amp;</p>" := by
  exact ⟨by decide, by decide⟩

/-- C9 (amended): normalize is idempotent on every input whose normalized
output is non-empty and free of the two markup delimiter characters (the
angle bracket opening a tag and the ampersand opening an entity): for such
inputs a second normalization parses the output back as plain text and
returns it unchanged. -/
theorem c9_idem_amended (x : String) (h1 : clean_html x ≠ "")
    (h2 : '<' ∉ (clean_html x).data) (h3 : '&' ∉ (clean_html x).data) :
    clean_html (clean_html x) = clean_html x :=
  clean_html_fixed (clean_html x) h1 h2 h3 (isNormalized_clean_html x)

/-- C9 witness: the amended idempotence at a concrete input. -/
theorem c9_idem_amended_witness :
    clean_html "<p>Hi there</p>" ≠ "" ∧
    '<' ∉ (clean_html "<p>Hi there</p>").data ∧
    '&' ∉ (clean_html "<p>Hi there</p>").data ∧
    clean_html (clean_html "<p>Hi there</p>") = clean_html "<p>Hi there</p>" :=
  ⟨by decide, by decide, by decide,
    c9_idem_amended "<p>Hi there</p>" (by decide) (by decide) (by decide)⟩

/-- C10: a non-empty input whose extracted text is entirely whitespace
normalizes to the empty string, not to the fallback text. -/
theorem c10_ws_only (s : String) (h1 : s ≠ "")
    (h2 : (extractText (parseHtml s.data)).all pySpace = true) :
    clean_html s = "" := by
  unfold clean_html
  rw [if_neg h1, stripEnds_collapseWs_allws _ h2]

/-- C10 witness: the empty-paragraph input. -/
theorem c10_ws_only_witness :
    ("<p></p>" : String) ≠ "" ∧
    (extractText (parseHtml "<p></p>".data)).all pySpace = true ∧
    clean_html "<p></p>" = "" :=
  ⟨by decide, by decide, c10_ws_only "<p></p>" (by decide) (by decide)⟩

end RSS

namespace RSS

theorem mem_insertDesc (x z : Story) (l : List Story) (h : z ∈ insertDesc x l) :
    z = x ∨ z ∈ l := by
  induction l with
  | nil =>
    rw [insertDesc] at h
    simp at h
    exact Or.inl h
  | cons y ys ih =>
    rw [insertDesc] at h
    by_cases hd : y.date < x.date
    · rw [if_pos hd] at h
      simpa using h
    · rw [if_neg hd] at h
      rcases List.mem_cons.mp h with hz | hz
      · exact Or.inr (by simp [hz])
      · rcases ih hz with hz2 | hz2
        · exact Or.inl hz2
        · exact Or.inr (by simp [hz2])

theorem pairwise_insertDesc (x : Story) (l : List Story)
    (h : l.Pairwise (fun a b => b.date ≤ a.date)) :
    (insertDesc x l).Pairwise (fun a b => b.date ≤ a.date) := by
  induction l with
  | nil => simp [insertDesc]
  | cons y ys ih =>
    rcases List.pairwise_cons.mp h with ⟨h1, h2⟩
    by_cases hd : y.date < x.date
    · rw [insertDesc, if_pos hd]
      rw [List.pairwise_cons]
      refine ⟨?_, h⟩
      intro z hz
      rcases List.mem_cons.mp hz with hz2 | hz2
      · subst hz2; exact le_of_lt hd
      · exact le_trans (h1 z hz2) (le_of_lt hd)
    · rw [insertDesc, if_neg hd]
      rw [List.pairwise_cons]
      refine ⟨?_, ih h2⟩
      intro z hz
      rcases mem_insertDesc x z ys hz with hz2 | hz2
      · subst hz2; exact Int.not_lt.mp hd
      · exact h1 z hz2

theorem pairwise_sortStories (l : List Story) :
    (sortStories l).Pairwise (fun a b => b.date ≤ a.date) := by
  have aux : ∀ (m : List Story) (acc : List Story),
      acc.Pairwise (fun a b => b.date ≤ a.date) →
      (m.foldl (fun acc x => insertDesc x acc) acc).Pairwise (fun a b => b.date ≤ a.date) := by
    intro m
    induction m with
    | nil => intro acc hacc; simpa using hacc
    | cons x xs ih =>
      intro acc hacc
      rw [List.foldl_cons]
      exact ih _ (pairwise_insertDesc x acc hacc)
  exact aux l [] (by simp)

theorem filter_eq_nil_of_lt (d : Int) (l : List Story) (y : Story)
    (hl : ∀ z ∈ l, z.date ≤ y.date) (hd : y.date < d) :
    l.filter (fun s => s.date == d) = [] := by
  induction l with
  | nil => rfl
  | cons z zs ih =>
    have hz := hl z (by simp)
    have hne : (z.date == d) = false := by
      simp only [beq_eq_false_iff_ne, ne_eq]
      omega
    rw [List.filter_cons, hne]
    simp only [Bool.false_eq_true, if_false]
    exact ih fun w hw => hl w (by simp [hw])

theorem insertDesc_filter (x : Story) (l : List Story) (d : Int)
    (h : l.Pairwise (fun a b => b.date ≤ a.date)) :
    (insertDesc x l).filter (fun s => s.date == d)
      = l.filter (fun s => s.date == d) ++ (if x.date == d then [x] else []) := by
  induction l with
  | nil =>
    rw [insertDesc]
    rw [List.filter_cons, List.filter_nil]
    by_cases hx : (x.date == d) = true
    · rw [hx]; simp [hx]
    · simp only [Bool.not_eq_true] at hx
      rw [hx]; simp [hx]
  | cons y ys ih =>
    rcases List.pairwise_cons.mp h with ⟨h1, h2⟩
    by_cases hd : y.date < x.date
    · rw [insertDesc, if_pos hd]
      have hnil : (y :: ys).filter (fun s => s.date == d)
          = ([] : List Story) ∨ (x.date == d) = false := by
        by_cases hx : (x.date == d) = true
        · left
          have hxd : x.date = d := by simpa using hx
          apply filter_eq_nil_of_lt d (y :: ys) y
          · intro z hz
            rcases List.mem_cons.mp hz with hz2 | hz2
            · subst hz2; exact le_refl _
            · exact h1 z hz2
          · omega
        · right; simpa using hx
      rw [List.filter_cons]
      by_cases hx : (x.date == d) = true
      · rcases hnil with hnil | hnil
        · rw [hx, hnil]
          simp [hx]
        · rw [hx] at hnil; cases hnil
      · simp only [Bool.not_eq_true] at hx
        rw [hx]
        simp [hx]
    · rw [insertDesc, if_neg hd]
      rw [List.filter_cons, List.filter_cons]
      by_cases hy : (y.date == d) = true
      · rw [hy]
        simp only [if_pos]
        rw [ih h2, List.cons_append]
      · simp only [Bool.not_eq_true] at hy
        rw [hy]
        simp only [Bool.false_eq_true, if_false]
        exact ih h2

theorem sortStories_filter (l : List Story) (d : Int) :
    (sortStories l).filter (fun s => s.date == d) = l.filter (fun s => s.date == d) := by
  have aux : ∀ (m : List Story) (acc : List Story),
      acc.Pairwise (fun a b => b.date ≤ a.date) →
      (m.foldl (fun acc x => insertDesc x acc) acc).filter (fun s => s.date == d)
        = acc.filter (fun s => s.date == d) ++ m.filter (fun s => s.date == d) := by
    intro m
    induction m with
    | nil => intro acc hacc; simp
    | cons x xs ih =>
      intro acc hacc
      rw [List.foldl_cons, ih _ (pairwise_insertDesc x acc hacc),
        insertDesc_filter x acc d hacc, List.filter_cons]
      by_cases hx : (x.date == d) = true
      · rw [hx]
        simp only [if_pos]
        rw [List.append_assoc, List.singleton_append]
      · simp only [Bool.not_eq_true] at hx
        rw [hx]
        simp
  have := aux l [] (by simp)
  simpa [sortStories] using this

theorem length_insertDesc (x : Story) (l : List Story) :
    (insertDesc x l).length = l.length + 1 := by
  induction l with
  | nil => rfl
  | cons y ys ih =>
    rw [insertDesc]
    by_cases hd : y.date < x.date
    · rw [if_pos hd]; simp
    · rw [if_neg hd]
      simp [ih]

theorem length_sortStories (l : List Story) : (sortStories l).length = l.length := by
  have aux : ∀ (m : List Story) (acc : List Story),
      (m.foldl (fun acc x => insertDesc x acc) acc).length = acc.length + m.length := by
    intro m
    induction m with
    | nil => intro acc; simp
    | cons x xs ih =>
      intro acc
      rw [List.foldl_cons, ih, length_insertDesc]
      simp only [List.length_cons]
      omega
  have := aux l []
  simpa [sortStories] using this

theorem sortStories_ne_nil (l : List Story) (h : l ≠ []) : sortStories l ≠ [] := by
  intro hc
  apply h
  have h1 := length_sortStories l
  rw [hc] at h1
  exact List.eq_nil_of_length_eq_zero h1.symm

end RSS

namespace RSS

theorem update_display_fst_stories (st : AppState) :
    (update_display st).fst.stories = st.stories := by
  unfold update_display
  split
  · rfl
  · rfl

theorem update_display_fst_index_zero (s : List Story) :
    (update_display { stories := s, current_index := 0 }).fst.current_index = 0 := by
  unfold update_display
  cases s with
  | nil => rfl
  | cons a as => simp

theorem update_display_empty (st : AppState) (h : st.stories = []) :
    update_display st = (st, []) := by
  unfold update_display
  split
  · rfl
  · next s0 rest heq =>
    rw [h] at heq
    cases heq

theorem inv_update_display (st : AppState) : Inv (update_display st).fst := by
  unfold Inv update_display
  split
  · next heq => intro hne; exact absurd heq hne
  · next s0 rest heq =>
    intro _
    simp only [heq]
    split
    · simp
    · next hlt => omega

theorem load_feeds_nostories (lines : List String) (fetch : String → Option RawFeed)
    (now : Int) (st : AppState) (h : loadEntries fetch now (urlsOf lines) = []) :
    load_feeds (ReadResult.ok lines) fetch now st
      = some (st, [Signal.setTitle "No stories found."]) := by
  simp only [load_feeds]
  rw [h]
  rfl

theorem load_feeds_publish (lines : List String) (fetch : String → Option RawFeed)
    (now : Int) (st : AppState) (h : loadEntries fetch now (urlsOf lines) ≠ []) :
    load_feeds (ReadResult.ok lines) fetch now st
      = some (update_display (AppState.mk (sortStories (loadEntries fetch now (urlsOf lines))) 0)) := by
  simp only [load_feeds]
  have hemp : (loadEntries fetch now (urlsOf lines)).isEmpty = false := by
    rw [List.isEmpty_eq_false_iff_exists_mem]
    cases hl : loadEntries fetch now (urlsOf lines) with
    | nil => exact absurd hl h
    | cons a as => exact ⟨a, by simp⟩
  rw [hemp]
  rfl

/-- C4: an ingestion run in which the concatenated per-source result is
empty returns with the state (story list and rotation index) exactly as it
was and only the no-stories status signalled to the display. -/
theorem c4_total_failure_noop (lines : List String) (fetch : String → Option RawFeed)
    (now : Int) (st : AppState) (h : loadEntries fetch now (urlsOf lines) = []) :
    load_feeds (ReadResult.ok lines) fetch now st
      = some (st, [Signal.setTitle "No stories found."]) :=
  load_feeds_nostories lines fetch now st h

/-- C8: the claim that every unreadable source list is handled is refuted:
only the missing-file error is caught; any other read failure (permission
denied, decode error) propagates uncaught out of load_feeds, reporting
nothing, unlike the zero-source run the claim promises. -/
theorem c8_unreadable_counterexample :
    load_feeds ReadResult.readError (fun _ => none) 0 (AppState.mk [] 0) = none
    ∧ load_feeds (ReadResult.ok []) (fun _ => none) 0 (AppState.mk [] 0)
        = some (AppState.mk [] 0, [Signal.setTitle "No stories found."]) := by
  exact ⟨rfl, rfl⟩

/-- C8 (amended): when the source list file is missing, the run does not
crash: it reports the condition on the display status channel and leaves
the state exactly as a zero-source run leaves it; but any other read
failure propagates uncaught, reporting nothing and changing nothing. -/
theorem c8_source_list_unavailable (fetch : String → Option RawFeed) (now : Int)
    (st : AppState) :
    load_feeds ReadResult.fileNotFound fetch now st
      = some (st, [Signal.setTitle "Error: feeds.txt not found"])
    ∧ (runOut (load_feeds ReadResult.fileNotFound fetch now st) st).fst
        = (runOut (load_feeds (ReadResult.ok []) fetch now st) st).fst
    ∧ load_feeds ReadResult.readError fetch now st = none := by
  exact ⟨rfl, rfl, rfl⟩

theorem processItems_eq_takeWhile (now : Int) (src : String) (items : List RawItem) :
    processItems now src items
      = (items.takeWhile (fun it => !it.broken)).map (mkStory now src) := by
  induction items with
  | nil => rfl
  | cons it rest ih =>
    rw [processItems, List.takeWhile_cons]
    by_cases hb : it.broken
    · rw [if_pos hb]
      simp [hb]
    · rw [if_neg hb]
      have : (!it.broken) = true := by simp [hb]
      rw [this]
      simp only [if_pos]
      rw [List.map_cons, ih]

/-- C5 (amended): a failing source never aborts the batch: the run is the
concatenation of the per-address results, so the remaining addresses are
still processed; a failure of the fetch itself contributes an empty
result, while a failure while processing an item contributes the stories
of the successfully processed items before it and drops the rest of that
feed. -/
theorem c5_failure_containment (fetch : String → Option RawFeed) (now : Int)
    (us1 us2 : List String) (u : String) :
    loadEntries fetch now (us1 ++ u :: us2)
      = loadEntries fetch now us1 ++ (processUrl fetch now u ++ loadEntries fetch now us2)
    ∧ (fetch u = none → processUrl fetch now u = [])
    ∧ ∀ feed, fetch u = some feed →
        processUrl fetch now u
          = (feed.entries.takeWhile (fun it => !it.broken)).map
              (mkStory now (feed.feedTitle.getD u)) := by
  refine ⟨?_, ?_, ?_⟩
  · unfold loadEntries
    rw [List.flatMap_append, List.flatMap_cons]
  · intro hf
    unfold processUrl
    rw [hf]
  · intro feed hf
    unfold processUrl
    rw [hf]
    exact processItems_eq_takeWhile now (feed.feedTitle.getD u) feed.entries

end RSS

namespace RSS

/-- A raw item that processes cleanly. -/
def okItem : RawItem :=
  { broken := false, title := some "A", content := some "<p>x</p>", summary := none,
    published_parsed := some 5, updated_parsed := none }

/-- A raw item whose processing raises. -/
def badItem : RawItem :=
  { broken := true, title := some "B", content := none, summary := none,
    published_parsed := none, updated_parsed := none }

/-- A feed that fails at its second item. -/
def brokenFeed : RawFeed := { feedTitle := some "F", entries := [okItem, badItem] }

/-- A fetch capability returning the partially failing feed everywhere. -/
def brokenFetch : String → Option RawFeed := fun _ => some brokenFeed

/-- A clean raw item with a given timestamp and title. -/
def tieItem (d : Int) (t : String) : RawItem :=
  { broken := false, title := some t, content := some "<p>s</p>", summary := none,
    published_parsed := some d, updated_parsed := none }

/-- A fetch capability with two sources whose items tie on one timestamp. -/
def tieFetch : String → Option RawFeed := fun u =>
  if u = "a" then some { feedTitle := some "FA", entries := [tieItem 5 "A1", tieItem 3 "A2"] }
  else some { feedTitle := some "FB", entries := [tieItem 5 "B1"] }

/-- C3: when an ingestion run yields at least one story, the published
list is sorted by timestamp descending, and for every timestamp the
stories carrying it appear exactly in discovery order (sources in source
list order, items in feed order): the sort is stable. -/
theorem c3_sorted_stable (lines : List String) (fetch : String → Option RawFeed)
    (now : Int) (st : AppState)
    (h : loadEntries fetch now (urlsOf lines) ≠ []) :
    load_feeds (ReadResult.ok lines) fetch now st
      = some (update_display (AppState.mk (sortStories (loadEntries fetch now (urlsOf lines))) 0))
    ∧ ((runOut (load_feeds (ReadResult.ok lines) fetch now st) st).fst.stories).Pairwise
        (fun a b => b.date ≤ a.date)
    ∧ ∀ d : Int,
        ((runOut (load_feeds (ReadResult.ok lines) fetch now st) st).fst.stories).filter
            (fun s => s.date == d)
          = (loadEntries fetch now (urlsOf lines)).filter (fun s => s.date == d) := by
  have hpub := load_feeds_publish lines fetch now st h
  have hst : (runOut (load_feeds (ReadResult.ok lines) fetch now st) st).fst.stories
      = sortStories (loadEntries fetch now (urlsOf lines)) := by
    rw [hpub]
    show (update_display (AppState.mk (sortStories (loadEntries fetch now (urlsOf lines))) 0)).fst.stories = _
    rw [update_display_fst_stories]
  rw [hst]
  exact ⟨hpub, pairwise_sortStories _, fun d => sortStories_filter _ d⟩

/-- C3 witness: a run with a timestamp tie across two sources. -/
theorem c3_sorted_stable_witness :
    loadEntries tieFetch 0 (urlsOf ["a", "b"]) ≠ []
    ∧ ((runOut (load_feeds (ReadResult.ok ["a", "b"]) tieFetch 0 (AppState.mk [] 0))
        (AppState.mk [] 0)).fst.stories).Pairwise (fun a b => b.date ≤ a.date)
    ∧ ((runOut (load_feeds (ReadResult.ok ["a", "b"]) tieFetch 0 (AppState.mk [] 0))
        (AppState.mk [] 0)).fst.stories).filter (fun s => s.date == (5 : Int))
      = (loadEntries tieFetch 0 (urlsOf ["a", "b"])).filter (fun s => s.date == (5 : Int)) :=
  ⟨by decide, (c3_sorted_stable ["a", "b"] tieFetch 0 (AppState.mk [] 0) (by decide)).2.1,
    (c3_sorted_stable ["a", "b"] tieFetch 0 (AppState.mk [] 0) (by decide)).2.2 5⟩

/-- C4 witness: a run in which the only source fails, against a populated
prior state. -/
theorem c4_total_failure_noop_witness :
    loadEntries (fun _ => none) 0 (urlsOf ["http://dead"]) = []
    ∧ load_feeds (ReadResult.ok ["http://dead"]) (fun _ => none) 0
        (AppState.mk [Story.mk "T" 3 "S" "B"] 0)
      = some (AppState.mk [Story.mk "T" 3 "S" "B"] 0, [Signal.setTitle "No stories found."]) :=
  ⟨by decide,
    c4_total_failure_noop ["http://dead"] (fun _ => none) 0
      (AppState.mk [Story.mk "T" 3 "S" "B"] 0) (by decide)⟩

/-- C5: the claim that a source failing while being processed contributes
no stories at all is refuted by a feed whose second item fails: the
address still contributes the story built from its first item. -/
theorem c5_partial_feed_counterexample :
    brokenFeed.entries.any (fun it => it.broken) = true
    ∧ processUrl brokenFetch 0 "http://u" ≠ [] := by
  exact ⟨by decide, by decide⟩

/-- C5 witness: the amended containment at concrete inputs, for a fetch
failure and for an item failure. -/
theorem c5_failure_containment_witness :
    processUrl brokenFetch 0 "http://u"
      = (brokenFeed.entries.takeWhile (fun it => !it.broken)).map
          (mkStory 0 (brokenFeed.feedTitle.getD "http://u"))
    ∧ processUrl (fun _ => none) 0 "http://u" = [] :=
  ⟨(c5_failure_containment brokenFetch 0 [] [] "http://u").2.2 brokenFeed rfl,
    (c5_failure_containment (fun _ => none) 0 [] [] "http://u").2.1 rfl⟩

theorem action_next_empty (st : AppState) (h : st.stories = []) :
    action_next_story st = (st, []) := by
  simp [action_next_story, h]

theorem action_prev_empty (st : AppState) (h : st.stories = []) :
    action_prev_story st = (st, []) := by
  simp [action_prev_story, h]

theorem action_next_fst_stories (st : AppState) :
    (action_next_story st).fst.stories = st.stories := by
  unfold action_next_story
  split
  · rfl
  · rw [update_display_fst_stories]

theorem action_prev_fst_stories (st : AppState) :
    (action_prev_story st).fst.stories = st.stories := by
  unfold action_prev_story
  split
  · rfl
  · rw [update_display_fst_stories]

theorem inv_action_next (st : AppState) : Inv (action_next_story st).fst := by
  unfold action_next_story
  split
  · next hemp =>
    intro hne
    exact absurd (List.isEmpty_iff.mp hemp) hne
  · exact inv_update_display _

theorem inv_action_prev (st : AppState) : Inv (action_prev_story st).fst := by
  unfold action_prev_story
  split
  · next hemp =>
    intro hne
    exact absurd (List.isEmpty_iff.mp hemp) hne
  · exact inv_update_display _

/-- C7: every operation preserves the rotation invariant (index in bounds
whenever the story list is non-empty); an operation that changes the story
list resets the index to zero; and on an empty story list the navigation
operations and the display update change nothing and push nothing. -/
theorem c7_rotation_invariant (op : Op) (st : AppState) (h : Inv st) :
    Inv (runOut (applyOp op st) st).fst
    ∧ ((runOut (applyOp op st) st).fst.stories ≠ st.stories →
        (runOut (applyOp op st) st).fst.current_index = 0)
    ∧ (st.stories = [] →
        applyOp Op.next st = some (st, []) ∧ applyOp Op.prev st = some (st, [])
          ∧ applyOp Op.display st = some (st, [])) := by
  refine ⟨?_, ?_, ?_⟩
  · cases op with
    | load r f n =>
      show Inv (runOut (load_feeds r f n st) st).fst
      cases r with
      | fileNotFound => exact h
      | readError => exact h
      | ok lines =>
        by_cases he : loadEntries f n (urlsOf lines) = []
        · rw [load_feeds_nostories lines f n st he]; exact h
        · rw [load_feeds_publish lines f n st he]; exact inv_update_display _
    | next => exact inv_action_next st
    | prev => exact inv_action_prev st
    | display => exact inv_update_display st
  · cases op with
    | load r f n =>
      cases r with
      | fileNotFound => intro hc; exact absurd rfl hc
      | readError => intro hc; exact absurd rfl hc
      | ok lines =>
        by_cases he : loadEntries f n (urlsOf lines) = []
        · rw [show applyOp (Op.load (ReadResult.ok lines) f n) st
              = load_feeds (ReadResult.ok lines) f n st from rfl,
            load_feeds_nostories lines f n st he]
          intro hc; exact absurd rfl hc
        · intro _
          show (runOut (load_feeds (ReadResult.ok lines) f n st) st).fst.current_index = 0
          rw [load_feeds_publish lines f n st he]
          exact update_display_fst_index_zero _
    | next => intro hc; exact absurd (action_next_fst_stories st) hc
    | prev => intro hc; exact absurd (action_prev_fst_stories st) hc
    | display => intro hc; exact absurd (update_display_fst_stories st) hc
  · intro he
    exact ⟨congrArg some (action_next_empty st he), congrArg some (action_prev_empty st he),
      congrArg some (update_display_empty st he)⟩

/-- C7 witness: the empty-list no-ops at the empty state. -/
theorem c7_rotation_invariant_witness :
    applyOp Op.next (AppState.mk [] 0) = some (AppState.mk [] 0, [])
    ∧ applyOp Op.prev (AppState.mk [] 0) = some (AppState.mk [] 0, [])
    ∧ applyOp Op.display (AppState.mk [] 0) = some (AppState.mk [] 0, []) :=
  (c7_rotation_invariant Op.next (AppState.mk [] 0) (fun hne => absurd rfl hne)).2.2 rfl

end RSS
